import Mathlib

/-!
Shallow embedding of the to-do list task store from `projecttt.cpp` and the
`ToDoList` variant in the second source file.

Modelling conventions:
* C++ `std::string` is embedded as `List Char`; C++ `int` as unbounded `Int`
  (no claim touches integer overflow).
* The singly linked list rooted at `head` is embedded as `List Task` in list
  order (front of the Lean list = `head` of the C++ list).
* `std::unordered_map<int, Node*>` is embedded as an association list
  `List (Int × Task)` with insert-or-overwrite and erase, mirroring
  `operator[]` assignment and `erase`.  In the source the map stores pointers
  to the very nodes of the linked list; mutation through a map pointer is
  therefore visible in the list.  The embedding reflects this by applying the
  same field update to the map entry and to the list node(s) carrying that id
  (under the store invariant the node with a given id is unique, so this is
  exactly the aliasing behaviour of the source).
* Console output is embedded as an explicit result component: operations
  return the new store state paired with a result describing which message
  the source prints (`none` / `false` for the error paths).
-/

namespace ToDo

/-- A task record: the data fields of `struct Node` (the `next` pointer is
represented by the position in the embedding list). -/
structure Task where
  id : Int
  description : List Char
  priority : Int
  completed : Bool
deriving DecidableEq, Repr

/-- The program state `struct ToDoData`: linked list, id → node map, undo
stack (top = front), id counter and live count. -/
structure ToDoData where
  head : List Task
  taskMap : List (Int × Task)
  deletedStack : List Task
  nextId : Int
  totalTasks : Int
deriving DecidableEq, Repr

/-- The freshly constructed store: `ToDoData()` initialises `head = nullptr`,
`nextId = 1`, `totalTasks = 0`, empty map and stack. -/
def initialData : ToDoData :=
  { head := [], taskMap := [], deletedStack := [], nextId := 1, totalTasks := 0 }

/-- Lookup in the id map: `taskMap.find(id)`. -/
def mapFind : List (Int × Task) → Int → Option Task
  | [], _ => none
  | (k, v) :: rest, id => if k = id then some v else mapFind rest id

/-- Insert-or-overwrite: `taskMap[id] = node`. -/
def mapInsert : List (Int × Task) → Int → Task → List (Int × Task)
  | [], k, v => [(k, v)]
  | (k', v') :: rest, k, v =>
      if k' = k then (k, v) :: rest else (k', v') :: mapInsert rest k v

/-- Erase by key: `taskMap.erase(id)`. -/
def mapErase : List (Int × Task) → Int → List (Int × Task)
  | [], _ => []
  | (k', v') :: rest, k =>
      if k' = k then rest else (k', v') :: mapErase rest k

/-- First node of the linked list whose `id` matches — the node the traversal
loop in `deleteTask` stops at. -/
def findInList : List Task → Int → Option Task
  | [], _ => none
  | t :: rest, id => if t.id = id then some t else findInList rest id

/-- Detach the first node with the given id from the list (the unlink step of
`deleteTask`, preserving the order of the remaining nodes). -/
def removeById : List Task → Int → List Task
  | [], _ => []
  | t :: rest, id => if t.id = id then rest else t :: removeById rest id

/-- Apply a field update to the node(s) with the given id.  In the source the
update happens through the aliased map pointer; under the store invariant
exactly one list node carries the id. -/
def updateById (l : List Task) (id : Int) (f : Task → Task) : List Task :=
  l.map fun t => if t.id = id then f t else t

/-- Priority clamping in `addTask`: `if (pr < 1 || pr > 5) pr = 1;`. -/
def clampPrio (p : Int) : Int := if p < 1 ∨ 5 < p then 1 else p

/-- The function `addTask` of `projecttt.cpp`.  Result component: `none` when
the empty-description error is printed, `some id` when "Task added with ID:
id" is printed. -/
def addTask (d : ToDoData) (desc : List Char) (priority : Int) :
    ToDoData × Option Int :=
  if desc = [] then (d, none)
  else
    let t : Task := ⟨d.nextId, desc, clampPrio priority, false⟩
    ({ d with
        head := d.head ++ [t],
        taskMap := mapInsert d.taskMap d.nextId t,
        nextId := d.nextId + 1,
        totalTasks := d.totalTasks + 1 }, some d.nextId)

/-- Field update performed by `editTask` once the node is found: a non-empty
new description replaces the old one; a parsed priority in `[1,5]` replaces
the old priority; parse failure (`none`), the `0` keep-sentinel and any
out-of-range value leave the priority unchanged. -/
def editFields (t : Task) (newDesc : List Char) (newPrio : Option Int) : Task :=
  let t1 := if newDesc = [] then t else { t with description := newDesc }
  match newPrio with
  | none => t1
  | some p => if 1 ≤ p ∧ p ≤ 5 then { t1 with priority := p } else t1

/-- The function `editTask` of `projecttt.cpp`.  The interactive inputs are
parameters: `newDesc` is the `getline` result (empty = keep) and `newPrio` is
the `cin >> newPrio` outcome (`none` = stream failure).  Result component
`false` = "Task not found". -/
def editTask (d : ToDoData) (id : Int) (newDesc : List Char)
    (newPrio : Option Int) : ToDoData × Bool :=
  match mapFind d.taskMap id with
  | none => (d, false)
  | some t =>
      ({ d with
          taskMap := mapInsert d.taskMap id (editFields t newDesc newPrio),
          head := updateById d.head id (fun u => editFields u newDesc newPrio) },
       true)

/-- Outcome of `deleteTask`: the not-found error, the silent safety return
(`if (!cur) return;`), or a successful deletion. -/
inductive DeleteResult where
  | notFound
  | nodeMissing
  | deleted
deriving DecidableEq, Repr

/-- The function `deleteTask` of `projecttt.cpp`: check the map, unlink the
first matching list node, push a detached copy on the undo stack, erase the
map entry, decrement the live count. -/
def deleteTask (d : ToDoData) (id : Int) : ToDoData × DeleteResult :=
  match mapFind d.taskMap id with
  | none => (d, .notFound)
  | some _ =>
      match findInList d.head id with
      | none => (d, .nodeMissing)
      | some cur =>
          ({ d with
              head := removeById d.head id,
              deletedStack := cur :: d.deletedStack,
              taskMap := mapErase d.taskMap id,
              totalTasks := d.totalTasks - 1 }, .deleted)

/-- The function `undoDelete` of `projecttt.cpp`: pop the most recently
deleted task, insert it at the head of the list, reinsert it into the map,
increment the live count and raise `nextId` to `max(nextId, restored.id + 1)`.
Result component: `none` = "No deleted task to undo", `some id` = restored id. -/
def undoDelete (d : ToDoData) : ToDoData × Option Int :=
  match d.deletedStack with
  | [] => (d, none)
  | restored :: rest =>
      ({ d with
          head := restored :: d.head,
          deletedStack := rest,
          taskMap := mapInsert d.taskMap restored.id restored,
          totalTasks := d.totalTasks + 1,
          nextId := max d.nextId (restored.id + 1) }, some restored.id)

/-- The function `searchTask` of `projecttt.cpp`: a map lookup; the printed
details are exactly the fields of the returned task. -/
def searchTask (d : ToDoData) (id : Int) : Option Task :=
  mapFind d.taskMap id

/-- The function `markComplete` of `projecttt.cpp`: sets `completed = done`
unconditionally on the found node.  Result `false` = "Task not found". -/
def markComplete (d : ToDoData) (id : Int) (done : Bool) : ToDoData × Bool :=
  match mapFind d.taskMap id with
  | none => (d, false)
  | some t =>
      ({ d with
          taskMap := mapInsert d.taskMap id { t with completed := done },
          head := updateById d.head id (fun u => { u with completed := done }) },
       true)

/-- The traversal order of `printAll`: the linked list from `head`. -/
def listAll (d : ToDoData) : List Task := d.head

/-- The `ToDoList` class of the second source file (linked list + hash table
+ `taskCounter` + `size`).  Its constructor sets `taskCounter = 1`, `size = 0`. -/
structure ToDoList where
  head : List Task
  hashTable : List (Int × Task)
  taskCounter : Int
  size : Int
deriving DecidableEq, Repr

/-- Freshly constructed `ToDoList`. -/
def initialList : ToDoList :=
  { head := [], hashTable := [], taskCounter := 1, size := 0 }

/-- The member function `ToDoList::addTask` of the second source file: rejects
an empty description, clamps an out-of-range priority to 1 (with a message),
inserts into the hash table, appends at the end of the linked list, and
increments `taskCounter` and `size`. -/
def ToDoList.addTask (l : ToDoList) (description : List Char) (priority : Int) :
    ToDoList × Option Int :=
  if description = [] then (l, none)
  else
    let p := if priority < 1 ∨ 5 < priority then 1 else priority
    let t : Task := ⟨l.taskCounter, description, p, false⟩
    ({ head := l.head ++ [t],
       hashTable := mapInsert l.hashTable l.taskCounter t,
       taskCounter := l.taskCounter + 1,
       size := l.size + 1 }, some l.taskCounter)

/-- Whitespace as skipped by `std::stoi` (via `isspace` in the "C" locale). -/
def isSpace (c : Char) : Bool :=
  c = ' ' ∨ c = '\t' ∨ c = '\n' ∨ c = '\x0b' ∨ c = '\x0c' ∨ c = '\r'

/-- Numeric value of a digit character. -/
def charVal (c : Char) : Nat := c.toNat - 48

/-- Accumulate the leading run of decimal digits, as `stoi` does after the
optional sign, stopping at the first non-digit. -/
def readNat : List Char → Nat → Nat
  | [], acc => acc
  | c :: rest, acc =>
      if c.isDigit then readNat rest (acc * 10 + charVal c) else acc

/-- The behaviour of `std::stoi` on the embedded string: skip leading
whitespace, accept one optional sign, then require at least one decimal
digit; `none` models the `std::invalid_argument` exception thrown when no
digit follows.  Overflow (`std::out_of_range`) is not modelled: integers are
unbounded here and no claim depends on it. -/
def stoiChars (s : List Char) : Option Int :=
  match s.dropWhile isSpace with
  | [] => none
  | c :: rest =>
      if c = '-' then
        match rest with
        | [] => none
        | c2 :: _ =>
            if c2.isDigit then some (-((readNat rest 0 : Nat) : Int)) else none
      else if c = '+' then
        match rest with
        | [] => none
        | c2 :: _ =>
            if c2.isDigit then some ((readNat rest 0 : Nat) : Int) else none
      else if c.isDigit then some ((readNat (c :: rest) 0 : Nat) : Int)
      else none

/-- Digit character for a value below 10. -/
def digitChar (n : Nat) : Char := Char.ofNat (48 + n)

/-- Decimal rendering worker: structural recursion on a fuel bound (any fuel
above the number of digits yields the same list, see
`natToCharsAux_eq_of_lt`). -/
def natToCharsAux : Nat → Nat → List Char
  | 0, _ => []
  | fuel + 1, n =>
      if n < 10 then [digitChar n]
      else natToCharsAux fuel (n / 10) ++ [digitChar (n % 10)]

/-- Decimal rendering of a natural number, as `operator<<` produces it. -/
def natToChars (n : Nat) : List Char := natToCharsAux (n + 1) n

/-- Decimal rendering of an integer: minus sign followed by the magnitude for
negative values. -/
def intToChars (i : Int) : List Char :=
  if i < 0 then '-' :: natToChars (-i).toNat else natToChars i.toNat

/-- The sanitising loop of `saveToFile`: every `'|'` in the description is
replaced by a space before writing. -/
def sanitize (s : List Char) : List Char :=
  s.map fun c => if c = '|' then ' ' else c

/-- One output line of `saveToFile`:
`id|description|priority|completed_flag`. -/
def taskLine (t : Task) : List Char :=
  intToChars t.id ++ '|' :: (sanitize t.description ++
    '|' :: (intToChars t.priority ++
      '|' :: (if t.completed then ['1'] else ['0'])))

/-- The function `saveToFile` of `projecttt.cpp`: the sequence of lines
written to the file, one per node in list order. -/
def saveToFile (d : ToDoData) : List (List Char) :=
  d.head.map taskLine

/-- Search for `'|'` starting at absolute index `idx`; returns the absolute
index of the first occurrence (`string::find(ch, pos)` on the remaining
suffix). -/
def findPipe : List Char → Nat → Option Nat
  | [], _ => none
  | c :: rest, idx => if c = '|' then some idx else findPipe rest (idx + 1)

/-- The call `line.find('|', pos)`. -/
def strFind (line : List Char) (pos : Nat) : Option Nat :=
  findPipe (line.drop pos) pos

/-- Outcome of processing one line in the `loadFromFile` loop: silently
skipped (empty or fewer than three delimiters), a parsed task, or an
uncaught `stoi` exception. -/
inductive LineResult where
  | skip
  | task (t : Task)
  | err
deriving DecidableEq, Repr

/-- The per-line parsing logic of `loadFromFile`: locate the first three
`'|'` delimiters (skipping the line if any is missing), then convert the id,
priority and completed fields with `stoi`; a conversion failure is the
uncaught exception path. -/
def parseLine (line : List Char) : LineResult :=
  if line = [] then .skip
  else
    match strFind line 0 with
    | none => .skip
    | some p1 =>
        match strFind line (p1 + 1) with
        | none => .skip
        | some p2 =>
            match strFind line (p2 + 1) with
            | none => .skip
            | some p3 =>
                match stoiChars (line.take p1),
                      stoiChars ((line.drop (p2 + 1)).take (p3 - p2 - 1)),
                      stoiChars (line.drop (p3 + 1)) with
                | some id, some prio, some done =>
                    .task ⟨id, (line.drop (p1 + 1)).take (p2 - p1 - 1), prio,
                           decide (done ≠ 0)⟩
                | _, _, _ => .err

/-- Effect of one loop iteration of `loadFromFile` on the store: a parsed
task is appended at the end of the list, inserted into the map, bumps
`nextId` to stay above its id and increments the live count; `none` models
the `stoi` exception escaping the function. -/
def loadLine (d : ToDoData) (line : List Char) : Option ToDoData :=
  match parseLine line with
  | .skip => some d
  | .err => none
  | .task t =>
      some { d with
              head := d.head ++ [t],
              taskMap := mapInsert d.taskMap t.id t,
              nextId := max d.nextId (t.id + 1),
              totalTasks := d.totalTasks + 1 }

/-- The function `loadFromFile` of `projecttt.cpp` applied to the lines read
by `getline`.  `Except.error d` means a `stoi` exception escaped with the
store (passed by reference) already holding the tasks of the earlier lines;
`Except.ok d` is normal completion. -/
def loadFromFile (d : ToDoData) : List (List Char) → Except ToDoData ToDoData
  | [] => .ok d
  | line :: rest =>
      match loadLine d line with
      | some d1 => loadFromFile d1 rest
      | none => .error d

/-- The store contents after a `loadFromFile` call, whether or not an
exception escaped (the store is mutated through a reference, so its partial
contents survive the exception). -/
def loadState : Except ToDoData ToDoData → ToDoData
  | .ok d => d
  | .error d => d

/-- Ids of the tasks a list of lines contributes when parsed by the
`loadFromFile` loop (lines that are skipped or hit the exception contribute
nothing). -/
def loadedIds (lines : List (List Char)) : List Int :=
  lines.filterMap fun line =>
    match parseLine line with
    | .task t => some t.id
    | _ => none

/-- Agreement of the ordered sequence and the identifier index: every list
node is found in the map under its id with the same fields, every map entry
is keyed by the id of a task that is on the list, and no id has two map
entries. -/
def SeqIndexAgree (d : ToDoData) : Prop :=
  (∀ t ∈ d.head, mapFind d.taskMap t.id = some t) ∧
  (∀ p ∈ d.taskMap, p.2 ∈ d.head ∧ p.1 = p.2.id) ∧
  (d.taskMap.map Prod.fst).Nodup

/-- Sequence ids are distinct and the index agrees with the sequence — the
part of the store invariant that survives (well-behaved) file loading. -/
def MapInv (d : ToDoData) : Prop :=
  (d.head.map Task.id).Nodup ∧ SeqIndexAgree d

/-- The full store invariant maintained by the in-memory operations: sequence
ids distinct and in agreement with the index, every live and stacked id below
`nextId`, stacked ids distinct and disjoint from live ids, and `totalTasks`
equal to the sequence length. -/
def Inv (d : ToDoData) : Prop :=
  MapInv d ∧
  (∀ t ∈ d.head, t.id < d.nextId) ∧
  (∀ t ∈ d.deletedStack, t.id < d.nextId) ∧
  (d.deletedStack.map Task.id).Nodup ∧
  (∀ t ∈ d.deletedStack, ∀ u ∈ d.head, t.id ≠ u.id) ∧
  d.totalTasks = (d.head.length : Int)

instance (d : ToDoData) : Decidable (SeqIndexAgree d) := by
  unfold SeqIndexAgree; infer_instance

instance (d : ToDoData) : Decidable (MapInv d) := by
  unfold MapInv; infer_instance

instance (d : ToDoData) : Decidable (Inv d) := by
  unfold Inv; infer_instance

/-- A menu operation of the interactive loop, with the interactive inputs as
arguments. -/
inductive Op where
  | add (desc : List Char) (prio : Int)
  | edit (id : Int) (newDesc : List Char) (newPrio : Option Int)
  | del (id : Int)
  | undo
  | mark (id : Int) (done : Bool)
deriving DecidableEq, Repr

/-- State transition of one menu operation. -/
def applyOp (d : ToDoData) : Op → ToDoData
  | .add desc p => (addTask d desc p).1
  | .edit id nd np => (editTask d id nd np).1
  | .del id => (deleteTask d id).1
  | .undo => (undoDelete d).1
  | .mark id done => (markComplete d id done).1

/-- Run a sequence of menu operations. -/
def runOps (d : ToDoData) : List Op → ToDoData
  | [] => d
  | op :: rest => runOps (applyOp d op) rest

/-- The id issued by one operation, if any: a successful `addTask` issues the
current `nextId`. -/
def stepIssued (d : ToDoData) : Op → List Int
  | .add desc _ => if desc = [] then [] else [d.nextId]
  | _ => []

/-- All ids issued along a run of operations, in order. -/
def issuedIds : ToDoData → List Op → List Int
  | _, [] => []
  | d, op :: rest => stepIssued d op ++ issuedIds (applyOp d op) rest

/-- The id restored by one operation, if any: a successful `undoDelete`
restores the id on top of the stack. -/
def stepRestored (d : ToDoData) : Op → List Int
  | .undo => match d.deletedStack with
             | [] => []
             | t :: _ => [t.id]
  | _ => []

/-- All ids restored along a run of operations, in order. -/
def restoredIds : ToDoData → List Op → List Int
  | _, [] => []
  | d, op :: rest => stepRestored d op ++ restoredIds (applyOp d op) rest

theorem mapFind_mapInsert_self (m : List (Int × Task)) (k : Int) (v : Task) :
    mapFind (mapInsert m k v) k = some v := by
  induction m with
  | nil => simp [mapInsert, mapFind]
  | cons p rest ih =>
      obtain ⟨k', v'⟩ := p
      by_cases hk : k' = k
      · simp [mapInsert, hk, mapFind]
      · simp [mapInsert, hk, mapFind, ih]

theorem mapFind_mapInsert_ne (m : List (Int × Task)) {k k' : Int} (v : Task)
    (h : k' ≠ k) : mapFind (mapInsert m k v) k' = mapFind m k' := by
  have h' : ¬ (k = k') := fun hh => h hh.symm
  induction m with
  | nil => simp [mapInsert, mapFind, h']
  | cons p rest ih =>
      obtain ⟨k₀, v₀⟩ := p
      by_cases hk : k₀ = k
      · simp [mapInsert, hk, mapFind, h']
      · simp only [mapInsert, if_neg hk, mapFind]
        by_cases hk' : k₀ = k' <;> simp [hk', ih]

theorem mem_mapInsert {m : List (Int × Task)} {k : Int} {v : Task}
    {p : Int × Task} (h : p ∈ mapInsert m k v) : p = (k, v) ∨ p ∈ m := by
  induction m with
  | nil => simpa [mapInsert] using h
  | cons q rest ih =>
      obtain ⟨k₀, v₀⟩ := q
      by_cases hk : k₀ = k
      · rw [mapInsert, if_pos hk] at h
        rcases List.mem_cons.1 h with h1 | h1
        · exact Or.inl h1
        · exact Or.inr (List.mem_cons_of_mem _ h1)
      · rw [mapInsert, if_neg hk] at h
        rcases List.mem_cons.1 h with h1 | h1
        · exact Or.inr (by simp [h1])
        · rcases ih h1 with h2 | h2
          · exact Or.inl h2
          · exact Or.inr (List.mem_cons_of_mem _ h2)

theorem keys_mapInsert_nodup {m : List (Int × Task)} (k : Int) (v : Task)
    (h : (m.map Prod.fst).Nodup) :
    ((mapInsert m k v).map Prod.fst).Nodup := by
  induction m with
  | nil => simp [mapInsert]
  | cons q rest ih =>
      obtain ⟨k₀, v₀⟩ := q
      simp only [List.map_cons, List.nodup_cons] at h
      by_cases hk : k₀ = k
      · subst hk
        simpa [mapInsert] using h
      · simp only [mapInsert, if_neg hk, List.map_cons, List.nodup_cons]
        refine ⟨fun hm => ?_, ih h.2⟩
        rcases List.mem_map.1 hm with ⟨p, hp, hfst⟩
        rcases mem_mapInsert hp with h' | h'
        · exact hk (by rw [h'] at hfst; exact hfst.symm)
        · exact h.1 (List.mem_map.2 ⟨p, h', hfst⟩)

theorem mem_mapInsert_of_nodup {m : List (Int × Task)} {k : Int} {v : Task}
    {p : Int × Task} (hn : (m.map Prod.fst).Nodup) (h : p ∈ mapInsert m k v) :
    p = (k, v) ∨ (p ∈ m ∧ p.1 ≠ k) := by
  induction m with
  | nil =>
      rw [mapInsert] at h
      simp at h
      exact Or.inl h
  | cons q rest ih =>
      obtain ⟨k₀, v₀⟩ := q
      simp only [List.map_cons, List.nodup_cons] at hn
      by_cases hk : k₀ = k
      · subst hk
        rw [mapInsert, if_pos rfl] at h
        rcases List.mem_cons.1 h with h1 | h1
        · exact Or.inl h1
        · refine Or.inr ⟨List.mem_cons_of_mem _ h1, fun hpk => ?_⟩
          exact hn.1 (List.mem_map.2 ⟨p, h1, hpk⟩)
      · rw [mapInsert, if_neg hk] at h
        rcases List.mem_cons.1 h with h1 | h1
        · exact Or.inr ⟨by simp [h1], by simp [h1, hk]⟩
        · rcases ih hn.2 h1 with h2 | h2
          · exact Or.inl h2
          · exact Or.inr ⟨List.mem_cons_of_mem _ h2.1, h2.2⟩

theorem mapErase_sublist (m : List (Int × Task)) (k : Int) :
    (mapErase m k).Sublist m := by
  induction m with
  | nil => simp [mapErase]
  | cons q rest ih =>
      obtain ⟨k₀, v₀⟩ := q
      by_cases hk : k₀ = k
      · rw [mapErase, if_pos hk]
        exact List.sublist_cons_self _ _
      · rw [mapErase, if_neg hk]
        exact ih.cons₂ _

theorem mapFind_mapErase_ne (m : List (Int × Task)) {k k' : Int}
    (h : k' ≠ k) : mapFind (mapErase m k) k' = mapFind m k' := by
  induction m with
  | nil => simp [mapErase]
  | cons q rest ih =>
      obtain ⟨k₀, v₀⟩ := q
      by_cases hk : k₀ = k
      · subst hk
        have h0 : ¬ (k₀ = k') := fun hh => h hh.symm
        rw [mapErase, if_pos rfl, mapFind, if_neg h0]
      · rw [mapErase, if_neg hk]
        by_cases hk' : k₀ = k' <;> simp [mapFind, hk', ih]

theorem not_mem_mapErase_self {m : List (Int × Task)} {k : Int}
    {p : Int × Task} (hn : (m.map Prod.fst).Nodup)
    (h : p ∈ mapErase m k) : p.1 ≠ k := by
  induction m with
  | nil => simp [mapErase] at h
  | cons q rest ih =>
      obtain ⟨k₀, v₀⟩ := q
      simp only [List.map_cons, List.nodup_cons] at hn
      by_cases hk : k₀ = k
      · subst hk
        rw [mapErase, if_pos rfl] at h
        intro hpk
        exact hn.1 (List.mem_map.2 ⟨p, h, hpk⟩)
      · rw [mapErase, if_neg hk] at h
        rcases List.mem_cons.1 h with h1 | h1
        · simpa [h1] using hk
        · exact ih hn.2 h1

theorem findInList_eq {l : List Task} {id : Int} {t : Task}
    (h : findInList l id = some t) : t.id = id ∧ t ∈ l := by
  induction l with
  | nil => simp [findInList] at h
  | cons u rest ih =>
      by_cases hu : u.id = id
      · rw [findInList, if_pos hu] at h
        obtain rfl : u = t := by injection h
        exact ⟨hu, List.mem_cons_self u rest⟩
      · rw [findInList, if_neg hu] at h
        exact ⟨(ih h).1, List.mem_cons_of_mem _ (ih h).2⟩

theorem findInList_eq_some {l : List Task} {id : Int} {t : Task}
    (hn : (l.map Task.id).Nodup) (ht : t ∈ l) (hid : t.id = id) :
    findInList l id = some t := by
  induction l with
  | nil => simp at ht
  | cons u rest ih =>
      simp only [List.map_cons, List.nodup_cons] at hn
      rcases List.mem_cons.1 ht with rfl | hmem
      · simp [findInList, hid]
      · by_cases hu : u.id = id
        · exact absurd (List.mem_map.2 ⟨t, hmem, by rw [hid, hu]⟩) hn.1
        · rw [findInList, if_neg hu]
          exact ih hn.2 hmem

theorem removeById_sublist (l : List Task) (id : Int) :
    (removeById l id).Sublist l := by
  induction l with
  | nil => simp [removeById]
  | cons u rest ih =>
      by_cases hu : u.id = id
      · rw [removeById, if_pos hu]
        exact List.sublist_cons_self _ _
      · rw [removeById, if_neg hu]
        exact ih.cons₂ _

theorem mem_removeById_ne {l : List Task} {id : Int} {t : Task}
    (hn : (l.map Task.id).Nodup) (h : t ∈ removeById l id) : t.id ≠ id := by
  induction l with
  | nil => simp [removeById] at h
  | cons u rest ih =>
      simp only [List.map_cons, List.nodup_cons] at hn
      by_cases hu : u.id = id
      · rw [removeById, if_pos hu] at h
        intro hti
        exact hn.1 (List.mem_map.2 ⟨t, h, by rw [hti, hu]⟩)
      · rw [removeById, if_neg hu] at h
        rcases List.mem_cons.1 h with rfl | hmem
        · exact hu
        · exact ih hn.2 hmem

theorem mem_removeById_of_ne {l : List Task} {id : Int} {t : Task}
    (ht : t ∈ l) (hne : t.id ≠ id) : t ∈ removeById l id := by
  induction l with
  | nil => simp at ht
  | cons u rest ih =>
      rcases List.mem_cons.1 ht with rfl | hmem
      · rw [removeById, if_neg hne]
        exact List.mem_cons_self _ _
      · by_cases hu : u.id = id
        · rw [removeById, if_pos hu]
          exact hmem
        · rw [removeById, if_neg hu]
          exact List.mem_cons_of_mem _ (ih hmem)

theorem length_removeById {l : List Task} {id : Int} {t : Task}
    (h : findInList l id = some t) :
    (removeById l id).length + 1 = l.length := by
  induction l with
  | nil => simp [findInList] at h
  | cons u rest ih =>
      by_cases hu : u.id = id
      · simp [removeById, hu]
      · rw [findInList, if_neg hu] at h
        simp [removeById, hu, ih h]

theorem updateById_map_id (l : List Task) (id : Int) (f : Task → Task)
    (hf : ∀ t, (f t).id = t.id) :
    (updateById l id f).map Task.id = l.map Task.id := by
  induction l with
  | nil => simp [updateById]
  | cons u rest ih =>
      by_cases hu : u.id = id <;>
        simpa [updateById, hu, hf] using ih

theorem editFields_id (t : Task) (nd : List Char) (np : Option Int) :
    (editFields t nd np).id = t.id := by
  unfold editFields
  cases np with
  | none => by_cases h : nd = [] <;> simp [h]
  | some p =>
      by_cases h : nd = [] <;> by_cases hp : 1 ≤ p ∧ p ≤ 5 <;> simp [h, hp]
theorem mapFind_mem {m : List (Int × Task)} {k : Int} {v : Task}
    (h : mapFind m k = some v) : (k, v) ∈ m := by
  induction m with
  | nil => simp [mapFind] at h
  | cons q rest ih =>
      obtain ⟨k₀, v₀⟩ := q
      by_cases hk : k₀ = k
      · rw [mapFind, if_pos hk] at h
        obtain rfl : v₀ = v := by injection h
        simp [hk]
      · rw [mapFind, if_neg hk] at h
        exact List.mem_cons_of_mem _ (ih h)

theorem Inv_update {d : ToDoData} {id : Int} {t : Task} (f : Task → Task)
    (hf : ∀ u, (f u).id = u.id) (h : Inv d)
    (hl : mapFind d.taskMap id = some t) :
    Inv { d with taskMap := mapInsert d.taskMap id (f t),
                 head := updateById d.head id f } := by
  unfold Inv MapInv SeqIndexAgree at h ⊢
  obtain ⟨⟨hln, hto, hfrom, hkn⟩, hlt, hslt, hsn, hsd, htot⟩ := h
  obtain ⟨htid, hthead⟩ : id = t.id ∧ t ∈ d.head := by
    have hmem := mapFind_mem hl
    exact ⟨(hfrom _ hmem).2, (hfrom _ hmem).1⟩
  refine ⟨⟨?_, ?_, ?_, ?_⟩, ?_, ?_, ?_, ?_, ?_⟩
  · simpa [updateById_map_id _ _ _ hf] using hln
  · intro u hu
    obtain ⟨v, hv, rfl⟩ := List.mem_map.1 hu
    by_cases hvid : v.id = id
    · obtain rfl : v = t := by
        have h2 := hto v hv
        rw [hvid, hl] at h2
        exact (Option.some.inj h2).symm
      rw [if_pos hvid, hf, hvid]
      exact mapFind_mapInsert_self _ _ _
    · rw [if_neg hvid, mapFind_mapInsert_ne _ _ hvid]
      exact hto v hv
  · intro p hp
    rcases mem_mapInsert_of_nodup hkn hp with rfl | ⟨hpm, hpk⟩
    · constructor
      · refine List.mem_map.2 ⟨t, hthead, ?_⟩
        rw [if_pos htid.symm]
      · simp [hf, htid]
    · obtain ⟨hp2, hp1⟩ := hfrom p hpm
      have hne : ¬ p.2.id = id := by rw [← hp1]; exact hpk
      exact ⟨List.mem_map.2 ⟨p.2, hp2, by rw [if_neg hne]⟩, hp1⟩
  · exact keys_mapInsert_nodup _ _ hkn
  · intro u hu
    obtain ⟨v, hv, rfl⟩ := List.mem_map.1 hu
    by_cases hvid : v.id = id
    · rw [if_pos hvid, hf]
      exact hlt v hv
    · rw [if_neg hvid]
      exact hlt v hv
  · exact hslt
  · exact hsn
  · intro ts hts u hu
    obtain ⟨v, hv, rfl⟩ := List.mem_map.1 hu
    by_cases hvid : v.id = id
    · rw [if_pos hvid, hf]
      exact hsd ts hts v hv
    · rw [if_neg hvid]
      exact hsd ts hts v hv
  · simpa [updateById] using htot

theorem Inv_editTask (d : ToDoData) (id : Int) (nd : List Char)
    (np : Option Int) (h : Inv d) : Inv (editTask d id nd np).1 := by
  unfold editTask
  cases hl : mapFind d.taskMap id with
  | none => simpa using h
  | some t =>
      simpa using
        Inv_update (fun u => editFields u nd np)
          (fun u => editFields_id u nd np) h hl

theorem Inv_markComplete (d : ToDoData) (id : Int) (done : Bool)
    (h : Inv d) : Inv (markComplete d id done).1 := by
  unfold markComplete
  cases hl : mapFind d.taskMap id with
  | none => simpa using h
  | some t =>
      simpa using
        Inv_update (fun u => { u with completed := done }) (fun u => rfl) h hl

theorem Inv_addTask (d : ToDoData) (desc : List Char) (p : Int) (h : Inv d) :
    Inv (addTask d desc p).1 := by
  by_cases hd : desc = []
  · simpa [addTask, hd] using h
  · unfold Inv MapInv SeqIndexAgree at h ⊢
    obtain ⟨⟨hln, hto, hfrom, hkn⟩, hlt, hslt, hsn, hsd, htot⟩ := h
    simp only [addTask, if_neg hd]
    refine ⟨⟨?_, ?_, ?_, ?_⟩, ?_, ?_, ?_, ?_, ?_⟩
    · simp only [List.map_append, List.map_cons, List.map_nil]
      rw [List.nodup_append]
      refine ⟨hln, List.nodup_singleton _, ?_⟩
      intro x hx hx'
      obtain ⟨u, hu, rfl⟩ := List.mem_map.1 hx
      have := hlt u hu
      simp at hx'
      omega
    · intro u hu
      rcases List.mem_append.1 hu with hu | hu
      · have hne : ¬ u.id = d.nextId := by have := hlt u hu; omega
        rw [mapFind_mapInsert_ne _ _ hne]
        exact hto u hu
      · simp at hu
        subst hu
        exact mapFind_mapInsert_self _ _ _
    · intro q hq
      rcases mem_mapInsert hq with rfl | hq'
      · simp
      · obtain ⟨hq2, hq1⟩ := hfrom q hq'
        exact ⟨List.mem_append_left _ hq2, hq1⟩
    · exact keys_mapInsert_nodup _ _ hkn
    · intro u hu
      rcases List.mem_append.1 hu with hu | hu
      · have := hlt u hu; omega
      · simp only [List.mem_singleton] at hu
        subst hu
        show d.nextId < d.nextId + 1
        omega
    · intro ts hts
      have := hslt ts hts; omega
    · exact hsn
    · intro ts hts u hu
      rcases List.mem_append.1 hu with hu | hu
      · exact hsd ts hts u hu
      · simp only [List.mem_singleton] at hu
        subst hu
        have := hslt ts hts
        show ts.id ≠ d.nextId
        omega
    · simp [htot]

theorem Inv_deleteTask (d : ToDoData) (id : Int) (h : Inv d) :
    Inv (deleteTask d id).1 := by
  unfold deleteTask
  cases hl : mapFind d.taskMap id with
  | none => simpa using h
  | some t0 =>
      cases hfnd : findInList d.head id with
      | none => simpa using h
      | some cur =>
          obtain ⟨hcid, hchead⟩ := findInList_eq hfnd
          unfold Inv MapInv SeqIndexAgree at h ⊢
          obtain ⟨⟨hln, hto, hfrom, hkn⟩, hlt, hslt, hsn, hsd, htot⟩ := h
          refine ⟨⟨?_, ?_, ?_, ?_⟩, ?_, ?_, ?_, ?_, ?_⟩
          · exact List.Nodup.sublist
              ((removeById_sublist d.head id).map Task.id) hln
          · intro u hu
            have hmem : u ∈ d.head := (removeById_sublist _ _).subset hu
            have hne : u.id ≠ id := mem_removeById_ne hln hu
            rw [mapFind_mapErase_ne _ hne]
            exact hto u hmem
          · intro q hq
            have hqm : q ∈ d.taskMap := (mapErase_sublist _ _).subset hq
            obtain ⟨hq2, hq1⟩ := hfrom q hqm
            have hqk : q.1 ≠ id := not_mem_mapErase_self hkn hq
            have hq2id : q.2.id ≠ id := by rw [← hq1]; exact hqk
            exact ⟨mem_removeById_of_ne hq2 hq2id, hq1⟩
          · exact List.Nodup.sublist
              ((mapErase_sublist d.taskMap id).map Prod.fst) hkn
          · intro u hu
            exact hlt u ((removeById_sublist _ _).subset hu)
          · intro ts hts
            rcases List.mem_cons.1 hts with rfl | hts'
            · exact hlt ts hchead
            · exact hslt ts hts'
          · simp only [List.map_cons, List.nodup_cons]
            refine ⟨fun hmem => ?_, hsn⟩
            obtain ⟨ts, hts, hid2⟩ := List.mem_map.1 hmem
            exact hsd ts hts cur hchead hid2
          · intro ts hts u hu
            rcases List.mem_cons.1 hts with rfl | hts'
            · have hune : u.id ≠ id := mem_removeById_ne hln hu
              rw [hcid]
              exact fun hh => hune hh.symm
            · exact hsd ts hts' u ((removeById_sublist _ _).subset hu)
          · have h2 := length_removeById hfnd
            have h3 : ((removeById d.head id).length : Int) + 1 =
                (d.head.length : Int) := by exact_mod_cast h2
            show d.totalTasks - 1 = ((removeById d.head id).length : Int)
            omega

theorem Inv_undoDelete (d : ToDoData) (h : Inv d) : Inv (undoDelete d).1 := by
  cases hs : d.deletedStack with
  | nil => simpa [undoDelete, hs] using h
  | cons r rest =>
      simp only [undoDelete, hs]
      unfold Inv MapInv SeqIndexAgree at h ⊢
      obtain ⟨⟨hln, hto, hfrom, hkn⟩, hlt, hslt, hsn, hsd, htot⟩ := h
      have hrstack : r ∈ d.deletedStack := by
        rw [hs]; exact List.mem_cons_self _ _
      have hrest : ∀ ts ∈ rest, ts ∈ d.deletedStack := fun ts hts => by
        rw [hs]; exact List.mem_cons_of_mem _ hts
      have hsn' : r.id ∉ rest.map Task.id ∧ (rest.map Task.id).Nodup := by
        rw [hs] at hsn; simpa using hsn
      refine ⟨⟨?_, ?_, ?_, ?_⟩, ?_, ?_, ?_, ?_, ?_⟩
      · simp only [List.map_cons, List.nodup_cons]
        refine ⟨fun hmem => ?_, hln⟩
        obtain ⟨u, hu, hid2⟩ := List.mem_map.1 hmem
        exact hsd r hrstack u hu hid2.symm
      · intro u hu
        rcases List.mem_cons.1 hu with rfl | hu'
        · exact mapFind_mapInsert_self _ _ _
        · have hne : u.id ≠ r.id := fun hh => hsd r hrstack u hu' hh.symm
          rw [mapFind_mapInsert_ne _ _ hne]
          exact hto u hu'
      · intro q hq
        rcases mem_mapInsert hq with rfl | hq'
        · exact ⟨List.mem_cons_self _ _, rfl⟩
        · obtain ⟨hq2, hq1⟩ := hfrom q hq'
          exact ⟨List.mem_cons_of_mem _ hq2, hq1⟩
      · exact keys_mapInsert_nodup _ _ hkn
      · intro u hu
        rcases List.mem_cons.1 hu with rfl | hu'
        · show u.id < max d.nextId (u.id + 1)
          have := le_max_right d.nextId (u.id + 1); omega
        · show u.id < max d.nextId (r.id + 1)
          have h1 := hlt u hu'
          have h2 := le_max_left d.nextId (r.id + 1)
          omega
      · intro ts hts
        show ts.id < max d.nextId (r.id + 1)
        have h1 := hslt ts (hrest ts hts)
        have h2 := le_max_left d.nextId (r.id + 1)
        omega
      · exact hsn'.2
      · intro ts hts u hu
        rcases List.mem_cons.1 hu with rfl | hu'
        · intro hh
          exact hsn'.1 (List.mem_map.2 ⟨ts, hts, hh⟩)
        · exact hsd ts (hrest ts hts) u hu'
      · show d.totalTasks + 1 = ((r :: d.head).length : Int)
        simp only [List.length_cons]
        omega

theorem MapInv_loadFromFile (lines : List (List Char)) (d : ToDoData)
    (h : MapInv d)
    (hids : (d.head.map Task.id ++ loadedIds lines).Nodup) :
    MapInv (loadState (loadFromFile d lines)) := by
  induction lines generalizing d with
  | nil => simpa [loadFromFile, loadState] using h
  | cons line rest ih =>
      rw [loadFromFile]
      cases hpl : parseLine line with
      | skip =>
          simp only [loadLine, hpl]
          apply ih _ h
          have he : loadedIds (line :: rest) = loadedIds rest := by
            simp [loadedIds, List.filterMap_cons, hpl]
          rwa [he] at hids
      | err =>
          simp only [loadLine, hpl]
          simpa [loadState] using h
      | task t =>
          simp only [loadLine, hpl]
          have he : loadedIds (line :: rest) = t.id :: loadedIds rest := by
            simp [loadedIds, List.filterMap_cons, hpl]
          rw [he] at hids
          have htfresh : t.id ∉ d.head.map Task.id := by
            intro hmem
            obtain ⟨-, -, hdisj⟩ := List.nodup_append.1 hids
            exact hdisj hmem (List.mem_cons_self _ _)
          obtain ⟨hln, hto, hfrom, hkn⟩ := h
          apply ih
          · refine ⟨?_, ?_, ?_, ?_⟩
            · show ((d.head ++ [t]).map Task.id).Nodup
              rw [List.append_cons] at hids
              simpa using List.Nodup.sublist (List.sublist_append_left _ _) hids
            · intro u hu
              rcases List.mem_append.1 hu with hu' | hu'
              · have hne : u.id ≠ t.id := by
                  intro hh
                  exact htfresh (hh ▸ List.mem_map.2 ⟨u, hu', rfl⟩)
                show mapFind (mapInsert d.taskMap t.id t) u.id = some u
                rw [mapFind_mapInsert_ne _ _ hne]
                exact hto u hu'
              · simp only [List.mem_singleton] at hu'
                subst hu'
                exact mapFind_mapInsert_self _ _ _
            · intro q hq
              rcases mem_mapInsert hq with rfl | hq'
              · exact ⟨List.mem_append_right _ (List.mem_singleton.2 rfl), rfl⟩
              · obtain ⟨hq2, hq1⟩ := hfrom q hq'
                exact ⟨List.mem_append_left _ hq2, hq1⟩
            · exact keys_mapInsert_nodup _ _ hkn
          · show (((d.head ++ [t]).map Task.id) ++ loadedIds rest).Nodup
            rw [List.append_cons] at hids
            simpa using hids

theorem applyOp_nextId_mono (d : ToDoData) (op : Op) :
    d.nextId ≤ (applyOp d op).nextId := by
  cases op with
  | add desc p =>
      by_cases hd : desc = [] <;> simp [applyOp, addTask, hd]
  | edit id nd np =>
      unfold applyOp editTask
      cases hl : mapFind d.taskMap id <;> simp [hl]
  | del id =>
      unfold applyOp deleteTask
      cases hl : mapFind d.taskMap id with
      | none => simp [hl]
      | some t => cases hf : findInList d.head id <;> simp [hl, hf]
  | undo =>
      unfold applyOp undoDelete
      cases hs : d.deletedStack <;> simp [hs, le_max_left]
  | mark id done =>
      unfold applyOp markComplete
      cases hl : mapFind d.taskMap id <;> simp [hl]

theorem runOps_nextId_mono (ops : List Op) (d : ToDoData) :
    d.nextId ≤ (runOps d ops).nextId := by
  induction ops generalizing d with
  | nil => simp [runOps]
  | cons op rest ih =>
      rw [runOps]
      exact le_trans (applyOp_nextId_mono d op) (ih _)

theorem mem_issuedIds_lt (ops : List Op) (d : ToDoData) (i : Int)
    (h : i ∈ issuedIds d ops) : i < (runOps d ops).nextId := by
  induction ops generalizing d with
  | nil => simp [issuedIds] at h
  | cons op rest ih =>
      rw [issuedIds] at h
      rw [runOps]
      rcases List.mem_append.1 h with h1 | h1
      · cases op with
        | add desc p =>
            by_cases hd : desc = []
            · simp [stepIssued, hd] at h1
            · simp only [stepIssued, if_neg hd, List.mem_singleton] at h1
              subst h1
              have h2 : (applyOp d (.add desc p)).nextId = d.nextId + 1 := by
                simp [applyOp, addTask, hd]
              have h3 := runOps_nextId_mono rest (applyOp d (.add desc p))
              omega
        | edit id nd np => simp [stepIssued] at h1
        | del id => simp [stepIssued] at h1
        | undo => simp [stepIssued] at h1
        | mark id done => simp [stepIssued] at h1
      · exact ih _ h1

theorem mem_issuedIds_ge (ops : List Op) (d : ToDoData) (i : Int)
    (h : i ∈ issuedIds d ops) : d.nextId ≤ i := by
  induction ops generalizing d with
  | nil => simp [issuedIds] at h
  | cons op rest ih =>
      rw [issuedIds] at h
      rcases List.mem_append.1 h with h1 | h1
      · cases op with
        | add desc p =>
            by_cases hd : desc = []
            · simp [stepIssued, hd] at h1
            · simp only [stepIssued, if_neg hd, List.mem_singleton] at h1
              omega
        | edit id nd np => simp [stepIssued] at h1
        | del id => simp [stepIssued] at h1
        | undo => simp [stepIssued] at h1
        | mark id done => simp [stepIssued] at h1
      · have h2 := ih _ h1
        have h3 := applyOp_nextId_mono d op
        omega

theorem mem_restoredIds_lt (ops : List Op) (d : ToDoData) (i : Int)
    (h : i ∈ restoredIds d ops) : i < (runOps d ops).nextId := by
  induction ops generalizing d with
  | nil => simp [restoredIds] at h
  | cons op rest ih =>
      rw [restoredIds] at h
      rw [runOps]
      rcases List.mem_append.1 h with h1 | h1
      · cases op with
        | add desc p => simp [stepRestored] at h1
        | edit id nd np => simp [stepRestored] at h1
        | del id => simp [stepRestored] at h1
        | mark id done => simp [stepRestored] at h1
        | undo =>
            cases hs : d.deletedStack with
            | nil => simp [stepRestored, hs] at h1
            | cons r rest' =>
                simp only [stepRestored, hs, List.mem_singleton] at h1
                subst h1
                have h2 : (applyOp d .undo).nextId = max d.nextId (r.id + 1) := by
                  simp [applyOp, undoDelete, hs]
                have h3 := runOps_nextId_mono rest (applyOp d .undo)
                have h4 := le_max_right d.nextId (r.id + 1)
                omega
      · exact ih _ h1

theorem issuedIds_pairwise (ops : List Op) (d : ToDoData) :
    (issuedIds d ops).Pairwise (· < ·) := by
  induction ops generalizing d with
  | nil => simp [issuedIds]
  | cons op rest ih =>
      rw [issuedIds, List.pairwise_append]
      refine ⟨?_, ih _, ?_⟩
      · cases op with
        | add desc p => by_cases hd : desc = [] <;> simp [stepIssued, hd]
        | edit id nd np => simp [stepIssued]
        | del id => simp [stepIssued]
        | undo => simp [stepIssued]
        | mark id done => simp [stepIssued]
      · intro a ha b hb
        cases op with
        | add desc p =>
            by_cases hd : desc = []
            · simp [stepIssued, hd] at ha
            · simp only [stepIssued, if_neg hd, List.mem_singleton] at ha
              subst ha
              have h2 : (applyOp d (.add desc p)).nextId = d.nextId + 1 := by
                simp [applyOp, addTask, hd]
              have h3 := mem_issuedIds_ge rest _ b hb
              omega
        | edit id nd np => simp [stepIssued] at ha
        | del id => simp [stepIssued] at ha
        | undo => simp [stepIssued] at ha
        | mark id done => simp [stepIssued] at ha


theorem digitChar_props : ∀ m < 10, (digitChar m).isDigit = true ∧
    isSpace (digitChar m) = false ∧ charVal (digitChar m) = m ∧
    digitChar m ≠ '-' ∧ digitChar m ≠ '+' ∧ digitChar m ≠ '|' := by decide

theorem natToCharsAux_eq_of_lt :
    ∀ n fuel, n < fuel → natToCharsAux fuel n = natToChars n := by
  intro n
  induction n using Nat.strong_induction_on with
  | _ n ih =>
      intro fuel hf
      cases fuel with
      | zero => omega
      | succ f =>
          by_cases h10 : n < 10
          · simp only [natToChars, natToCharsAux, if_pos h10]
          · have hdiv : n / 10 < n := Nat.div_lt_self (by omega) (by omega)
            simp only [natToChars, natToCharsAux, if_neg h10]
            rw [ih (n / 10) hdiv f (by omega), ih (n / 10) hdiv n (by omega)]

theorem natToChars_eq (n : Nat) : natToChars n =
    if n < 10 then [digitChar n]
    else natToChars (n / 10) ++ [digitChar (n % 10)] := by
  conv_lhs => rw [natToChars, natToCharsAux]
  by_cases h10 : n < 10
  · rw [if_pos h10, if_pos h10]
  · rw [if_neg h10, if_neg h10,
      natToCharsAux_eq_of_lt (n / 10) n (by omega)]

theorem mem_natToChars :
    ∀ n c, c ∈ natToChars n → ∃ m, m < 10 ∧ c = digitChar m := by
  intro n
  induction n using Nat.strong_induction_on with
  | _ n ih =>
      intro c hc
      rw [natToChars_eq] at hc
      by_cases h10 : n < 10
      · rw [if_pos h10] at hc
        simp only [List.mem_singleton] at hc
        exact ⟨n, h10, hc⟩
      · rw [if_neg h10] at hc
        rcases List.mem_append.1 hc with hc | hc
        · exact ih (n / 10) (Nat.div_lt_self (by omega) (by omega)) c hc
        · simp only [List.mem_singleton] at hc
          exact ⟨n % 10, Nat.mod_lt _ (by omega), hc⟩

theorem natToChars_ne_nil (n : Nat) : natToChars n ≠ [] := by
  rw [natToChars_eq]
  by_cases h10 : n < 10 <;> simp [h10]

theorem readNat_append_digits (a : List Char) (b : List Char) (acc : Nat)
    (h : ∀ c ∈ a, c.isDigit = true) :
    readNat (a ++ b) acc = readNat b (readNat a acc) := by
  induction a generalizing acc with
  | nil => simp [readNat]
  | cons c rest ih =>
      have hc := h c (List.mem_cons_self _ _)
      simp only [List.cons_append, readNat, hc, if_true]
      exact ih _ (fun x hx => h x (List.mem_cons_of_mem _ hx))

theorem readNat_natToChars :
    ∀ n acc, readNat (natToChars n) acc =
      acc * 10 ^ (natToChars n).length + n := by
  intro n
  induction n using Nat.strong_induction_on with
  | _ n ih =>
      intro acc
      by_cases h10 : n < 10
      · rw [natToChars_eq, if_pos h10]
        obtain ⟨hd, -, hv, -⟩ := digitChar_props n h10
        simp [readNat, hd, hv]
      · have hdiv : n / 10 < n := Nat.div_lt_self (by omega) (by omega)
        rw [natToChars_eq, if_neg h10]
        have hdig : ∀ c ∈ natToChars (n / 10), c.isDigit = true := by
          intro c hc
          obtain ⟨m, hm, rfl⟩ := mem_natToChars _ c hc
          exact (digitChar_props m hm).1
        rw [readNat_append_digits _ _ _ hdig, ih (n / 10) hdiv acc]
        obtain ⟨hd, -, hv, -⟩ := digitChar_props (n % 10) (Nat.mod_lt _ (by omega))
        simp only [readNat, hd, if_true, hv, List.length_append,
          List.length_singleton]
        have hmod : 10 * (n / 10) + n % 10 = n := Nat.div_add_mod n 10
        have h2 : (acc * 10 ^ (natToChars (n / 10)).length + n / 10) * 10 +
            n % 10 = acc * 10 ^ ((natToChars (n / 10)).length + 1) +
              (10 * (n / 10) + n % 10) := by
          rw [pow_succ]; ring
        rw [h2, hmod]

theorem stoi_natToChars (n : Nat) : stoiChars (natToChars n) = some (n : Int) := by
  obtain ⟨c, rest, hcr⟩ := List.exists_cons_of_ne_nil (natToChars_ne_nil n)
  have hc : c ∈ natToChars n := by rw [hcr]; exact List.mem_cons_self _ _
  obtain ⟨m, hm, rfl⟩ := mem_natToChars n c hc
  obtain ⟨hdig, hsp, -, hminus, hplus, -⟩ := digitChar_props m hm
  have hread : readNat (natToChars n) 0 = n := by
    rw [readNat_natToChars]; ring
  rw [stoiChars, hcr, List.dropWhile_cons, hsp]
  simp only [Bool.false_eq_true, if_false, if_neg hminus, if_neg hplus, hdig,
    if_true]
  rw [← hcr, hread]

theorem stoi_intToChars (i : Int) : stoiChars (intToChars i) = some i := by
  by_cases hi : i < 0
  · rw [intToChars, if_pos hi]
    obtain ⟨c, rest, hcr⟩ :=
      List.exists_cons_of_ne_nil (natToChars_ne_nil (-i).toNat)
    have hc : c ∈ natToChars (-i).toNat := by
      rw [hcr]; exact List.mem_cons_self _ _
    obtain ⟨m, hm, rfl⟩ := mem_natToChars _ c hc
    obtain ⟨hdig, -, -, -⟩ := digitChar_props m hm
    have hread : readNat (natToChars (-i).toNat) 0 = (-i).toNat := by
      rw [readNat_natToChars]; ring
    rw [stoiChars, List.dropWhile_cons]
    have hspm : isSpace '-' = false := by decide
    rw [hspm]
    simp only [Bool.false_eq_true, if_false, if_pos rfl]
    rw [hcr]
    simp only [hdig, if_true]
    rw [← hcr, hread]
    congr 1
    omega
  · rw [intToChars, if_neg hi, stoi_natToChars]
    congr 1
    omega

theorem pipe_not_mem_natToChars (n : Nat) : '|' ∉ natToChars n := by
  intro h
  obtain ⟨m, hm, he⟩ := mem_natToChars n '|' h
  exact (digitChar_props m hm).2.2.2.2.2 he.symm

theorem intToChars_ne_nil (i : Int) : intToChars i ≠ [] := by
  rw [intToChars]
  by_cases hi : i < 0
  · simp [hi]
  · simp [hi, natToChars_ne_nil]

theorem pipe_not_mem_intToChars (i : Int) : '|' ∉ intToChars i := by
  rw [intToChars]
  by_cases hi : i < 0
  · rw [if_pos hi]
    intro h
    rcases List.mem_cons.1 h with h | h
    · exact absurd h (by decide)
    · exact pipe_not_mem_natToChars _ h
  · rw [if_neg hi]
    exact pipe_not_mem_natToChars _

theorem pipe_not_mem_sanitize (s : List Char) : '|' ∉ sanitize s := by
  intro h
  obtain ⟨c, hc, he⟩ := List.mem_map.1 h
  by_cases hcp : c = '|'
  · rw [if_pos hcp] at he
    exact absurd he (by decide)
  · rw [if_neg hcp] at he
    exact hcp he

theorem sanitize_eq_self {s : List Char} (h : '|' ∉ s) : sanitize s = s := by
  induction s with
  | nil => rfl
  | cons c rest ih =>
      simp only [List.mem_cons, not_or] at h
      have ht := ih h.2
      simp only [sanitize, List.map_cons] at ht ⊢
      rw [if_neg (fun hh : c = '|' => h.1 hh.symm), ht]


theorem drop_append_cons (a r : List Char) (c : Char) :
    (a ++ c :: r).drop (a.length + 1) = r := by
  induction a with
  | nil => simp
  | cons x rest ih => simpa using ih

theorem findPipe_append (a b : List Char) (i : Nat) (h : '|' ∉ a) :
    findPipe (a ++ '|' :: b) i = some (i + a.length) := by
  induction a generalizing i with
  | nil => simp [findPipe]
  | cons c rest ih =>
      simp only [List.mem_cons, not_or] at h
      rw [List.cons_append, findPipe, if_neg (fun hh : c = '|' => h.1 hh.symm),
        ih _ h.2]
      congr 1
      simp only [List.length_cons]
      omega

theorem parseLine_taskLine (t : Task) :
    parseLine (taskLine t) =
      .task ⟨t.id, sanitize t.description, t.priority, t.completed⟩ := by
  obtain ⟨id, desc, prio, comp⟩ := t
  have hA : '|' ∉ intToChars id := pipe_not_mem_intToChars id
  have hB : '|' ∉ sanitize desc := pipe_not_mem_sanitize desc
  have hC : '|' ∉ intToChars prio := pipe_not_mem_intToChars prio
  have hL : taskLine ⟨id, desc, prio, comp⟩ =
      intToChars id ++ '|' :: (sanitize desc ++ '|' ::
        (intToChars prio ++ '|' :: (if comp then ['1'] else ['0']))) := rfl
  have hlne : taskLine ⟨id, desc, prio, comp⟩ ≠ [] := by
    rw [hL]; simp
  have hp1 : strFind (taskLine ⟨id, desc, prio, comp⟩) 0 =
      some ((intToChars id).length) := by
    rw [hL, strFind, List.drop_zero]
    simpa using findPipe_append _ _ 0 hA
  have hd1 : (taskLine ⟨id, desc, prio, comp⟩).drop ((intToChars id).length + 1) =
      sanitize desc ++ '|' ::
        (intToChars prio ++ '|' :: (if comp then ['1'] else ['0'])) := by
    rw [hL]; exact drop_append_cons _ _ _
  have hp2 : strFind (taskLine ⟨id, desc, prio, comp⟩)
      ((intToChars id).length + 1) =
      some ((intToChars id).length + 1 + (sanitize desc).length) := by
    rw [strFind, hd1]
    exact findPipe_append _ _ _ hB
  have hd2 : (taskLine ⟨id, desc, prio, comp⟩).drop
      ((intToChars id).length + 1 + (sanitize desc).length + 1) =
      intToChars prio ++ '|' :: (if comp then ['1'] else ['0']) := by
    rw [show (intToChars id).length + 1 + (sanitize desc).length + 1 =
        ((intToChars id).length + 1) + ((sanitize desc).length + 1) from by omega,
      ← List.drop_drop, hd1]
    exact drop_append_cons _ _ _
  have hp3 : strFind (taskLine ⟨id, desc, prio, comp⟩)
      ((intToChars id).length + 1 + (sanitize desc).length + 1) =
      some ((intToChars id).length + 1 + (sanitize desc).length + 1 +
        (intToChars prio).length) := by
    rw [strFind, hd2]
    exact findPipe_append _ _ _ hC
  have hd3 : (taskLine ⟨id, desc, prio, comp⟩).drop
      ((intToChars id).length + 1 + (sanitize desc).length + 1 +
        (intToChars prio).length + 1) =
      (if comp then ['1'] else ['0']) := by
    rw [show (intToChars id).length + 1 + (sanitize desc).length + 1 +
          (intToChars prio).length + 1 =
        ((intToChars id).length + 1 + (sanitize desc).length + 1) +
          ((intToChars prio).length + 1) from by omega,
      ← List.drop_drop, hd2]
    exact drop_append_cons _ _ _
  have hidf : (taskLine ⟨id, desc, prio, comp⟩).take ((intToChars id).length) =
      intToChars id := by
    rw [hL]; exact List.take_left _ _
  have hdescf : ((taskLine ⟨id, desc, prio, comp⟩).drop
      ((intToChars id).length + 1)).take
      ((intToChars id).length + 1 + (sanitize desc).length -
        (intToChars id).length - 1) = sanitize desc := by
    rw [hd1, show (intToChars id).length + 1 + (sanitize desc).length -
        (intToChars id).length - 1 = (sanitize desc).length from by omega]
    exact List.take_left _ _
  have hpriof : ((taskLine ⟨id, desc, prio, comp⟩).drop
      ((intToChars id).length + 1 + (sanitize desc).length + 1)).take
      ((intToChars id).length + 1 + (sanitize desc).length + 1 +
        (intToChars prio).length -
        ((intToChars id).length + 1 + (sanitize desc).length) - 1) =
      intToChars prio := by
    rw [hd2, show (intToChars id).length + 1 + (sanitize desc).length + 1 +
        (intToChars prio).length -
        ((intToChars id).length + 1 + (sanitize desc).length) - 1 =
        (intToChars prio).length from by omega]
    exact List.take_left _ _
  have hflag : stoiChars (if comp then ['1'] else ['0']) =
      some (if comp then 1 else 0) := by
    cases comp <;> rfl
  rw [parseLine, if_neg hlne]
  rw [hp1]
  simp only []
  rw [hp2]
  simp only []
  rw [hp3]
  simp only []
  rw [hidf, hdescf, hpriof, hd3, hflag, stoi_intToChars, stoi_intToChars]
  simp only []
  cases comp <;> simp


theorem loadFromFile_saved (tasks : List Task) (d0 : ToDoData)
    (h : ∀ t ∈ tasks, '|' ∉ t.description) :
    ∃ d1, loadFromFile d0 (tasks.map taskLine) = .ok d1 ∧
      d1.head = d0.head ++ tasks := by
  induction tasks generalizing d0 with
  | nil => exact ⟨d0, rfl, by simp⟩
  | cons t rest ih =>
      have ht := h t (List.mem_cons_self _ _)
      have hsan : sanitize t.description = t.description := sanitize_eq_self ht
      have hpl : parseLine (taskLine t) = .task t := by
        rw [parseLine_taskLine, hsan]
      rw [List.map_cons, loadFromFile]
      simp only [loadLine, hpl]
      obtain ⟨d1, hload, hhead⟩ :=
        ih { d0 with
              head := d0.head ++ [t],
              taskMap := mapInsert d0.taskMap t.id t,
              nextId := max d0.nextId (t.id + 1),
              totalTasks := d0.totalTasks + 1 }
          (fun u hu => h u (List.mem_cons_of_mem _ hu))
      refine ⟨d1, hload, ?_⟩
      rw [hhead]
      simp

theorem load_liveLt (lines : List (List Char)) (d0 : ToDoData)
    (h : ∀ t ∈ d0.head, t.id < d0.nextId) :
    ∀ t ∈ (loadState (loadFromFile d0 lines)).head,
      t.id < (loadState (loadFromFile d0 lines)).nextId := by
  induction lines generalizing d0 with
  | nil => simpa [loadFromFile, loadState] using h
  | cons line rest ih =>
      rw [loadFromFile]
      cases hpl : parseLine line with
      | skip =>
          simp only [loadLine, hpl]
          exact ih _ h
      | err =>
          simp only [loadLine, hpl]
          simpa [loadState] using h
      | task t =>
          simp only [loadLine, hpl]
          apply ih
          intro u hu
          rcases List.mem_append.1 hu with hu' | hu'
          · have h1 := h u hu'
            have h2 := le_max_left d0.nextId (t.id + 1)
            show u.id < max d0.nextId (t.id + 1)
            omega
          · simp only [List.mem_singleton] at hu'
            subst hu'
            show u.id < max d0.nextId (u.id + 1)
            have := le_max_right d0.nextId (u.id + 1)
            omega


theorem deleteTask_nextId (d : ToDoData) (id : Int) :
    (deleteTask d id).1.nextId = d.nextId := by
  unfold deleteTask
  cases hl : mapFind d.taskMap id with
  | none => rfl
  | some t => cases hf : findInList d.head id <;> rfl

theorem searchTask_adds (ops : List Op) (d : ToDoData) (k : Int)
    (hops : ∀ op ∈ ops, ∃ ds pr, op = .add ds pr) (hk : k < d.nextId) :
    searchTask (runOps d ops) k = searchTask d k := by
  induction ops generalizing d with
  | nil => rfl
  | cons op rest ih =>
      obtain ⟨ds, pr, rfl⟩ := hops op (List.mem_cons_self _ _)
      rw [runOps]
      have hrest : ∀ op ∈ rest, ∃ ds pr, op = Op.add ds pr :=
        fun op hop => hops op (List.mem_cons_of_mem _ hop)
      by_cases hds : ds = []
      · rw [show applyOp d (.add ds pr) = d from by simp [applyOp, addTask, hds]]
        exact ih d hrest hk
      · have h1 : (applyOp d (.add ds pr)).nextId = d.nextId + 1 := by
          simp [applyOp, addTask, hds]
        have h2 : searchTask (applyOp d (.add ds pr)) k = searchTask d k := by
          simp only [applyOp, addTask, if_neg hds, searchTask]
          exact mapFind_mapInsert_ne _ _ (by omega)
        rw [ih _ hrest (by omega), h2]

/-- C1: deleting the id of a live task and then calling `undoDelete` restores
the very same task (same id, description, priority and completion state), the
store size returns to its pre-delete value, the restored id is reported, the
task is again found under its id, and the restored task is the first element
of `listAll` — it is reinserted at the front, not at its original position. -/
theorem C1 (d : ToDoData) (id : Int) (t : Task)
    (hm : (mapFind d.taskMap id).isSome) (hf : findInList d.head id = some t) :
    (listAll (undoDelete (deleteTask d id).1).1).head? = some t ∧
    (undoDelete (deleteTask d id).1).1.totalTasks = d.totalTasks ∧
    (undoDelete (deleteTask d id).1).2 = some id ∧
    mapFind (undoDelete (deleteTask d id).1).1.taskMap id = some t := by
  obtain ⟨tm, hm'⟩ := Option.isSome_iff_exists.1 hm
  have hts : t.id = id := (findInList_eq hf).1
  simp only [deleteTask, hm', hf, undoDelete, listAll]
  refine ⟨rfl, ?_, ?_, ?_⟩
  · show d.totalTasks - 1 + 1 = d.totalTasks
    omega
  · show some t.id = some id
    rw [hts]
  · show mapFind (mapInsert (mapErase d.taskMap id) t.id t) id = some t
    rw [← hts]
    exact mapFind_mapInsert_self _ _ _

/-- Witness for C1: a two-task store, deleting and undoing id 1. -/
theorem C1_witness :
    (mapFind (ToDoData.mk
        [⟨1, ['a'], 2, false⟩, ⟨2, ['b'], 3, true⟩]
        [(1, ⟨1, ['a'], 2, false⟩), (2, ⟨2, ['b'], 3, true⟩)] [] 3 2).taskMap
      1).isSome = true ∧
    findInList (ToDoData.mk
        [⟨1, ['a'], 2, false⟩, ⟨2, ['b'], 3, true⟩]
        [(1, ⟨1, ['a'], 2, false⟩), (2, ⟨2, ['b'], 3, true⟩)] [] 3 2).head 1 =
      some ⟨1, ['a'], 2, false⟩ ∧
    ((listAll (undoDelete (deleteTask (ToDoData.mk
        [⟨1, ['a'], 2, false⟩, ⟨2, ['b'], 3, true⟩]
        [(1, ⟨1, ['a'], 2, false⟩), (2, ⟨2, ['b'], 3, true⟩)] [] 3 2)
        1).1).1).head? = some ⟨1, ['a'], 2, false⟩ ∧
      (undoDelete (deleteTask (ToDoData.mk
        [⟨1, ['a'], 2, false⟩, ⟨2, ['b'], 3, true⟩]
        [(1, ⟨1, ['a'], 2, false⟩), (2, ⟨2, ['b'], 3, true⟩)] [] 3 2)
        1).1).1.totalTasks = (ToDoData.mk
        [⟨1, ['a'], 2, false⟩, ⟨2, ['b'], 3, true⟩]
        [(1, ⟨1, ['a'], 2, false⟩), (2, ⟨2, ['b'], 3, true⟩)] [] 3 2).totalTasks ∧
      (undoDelete (deleteTask (ToDoData.mk
        [⟨1, ['a'], 2, false⟩, ⟨2, ['b'], 3, true⟩]
        [(1, ⟨1, ['a'], 2, false⟩), (2, ⟨2, ['b'], 3, true⟩)] [] 3 2)
        1).1).2 = some 1 ∧
      mapFind (undoDelete (deleteTask (ToDoData.mk
        [⟨1, ['a'], 2, false⟩, ⟨2, ['b'], 3, true⟩]
        [(1, ⟨1, ['a'], 2, false⟩), (2, ⟨2, ['b'], 3, true⟩)] [] 3 2)
        1).1).1.taskMap 1 = some ⟨1, ['a'], 2, false⟩) :=
  ⟨by decide, by decide,
    C1 (ToDoData.mk
        [⟨1, ['a'], 2, false⟩, ⟨2, ['b'], 3, true⟩]
        [(1, ⟨1, ['a'], 2, false⟩), (2, ⟨2, ['b'], 3, true⟩)] [] 3 2)
      1 ⟨1, ['a'], 2, false⟩ (by decide) (by decide)⟩

/-- C6: for a live task, edit with an invalid priority input — a parse
failure, the `0` keep-sentinel, or any out-of-range value — leaves the
priority (and completion state) unchanged, and an empty description input
leaves the description unchanged; this contrasts with add, whose policy is to
clamp out-of-range priorities (such as 0 and 9) to 1. -/
theorem C6 (d : ToDoData) (id : Int) (t : Task) (nd : List Char)
    (np : Option Int) (hl : mapFind d.taskMap id = some t)
    (hp : ∀ q, np = some q → q < 1 ∨ 5 < q) :
    searchTask (editTask d id nd np).1 id =
      some { t with description := if nd = [] then t.description else nd } ∧
    (editTask d id nd np).2 = true ∧
    clampPrio 0 = 1 ∧ clampPrio 9 = 1 := by
  have hef : editFields t nd np =
      { t with description := if nd = [] then t.description else nd } := by
    unfold editFields
    cases np with
    | none => by_cases hnd : nd = [] <;> simp [hnd]
    | some q =>
        have hq0 := hp q rfl
        have hq : ¬ (1 ≤ q ∧ q ≤ 5) := by omega
        by_cases hnd : nd = [] <;> simp [hnd, hq]
  refine ⟨?_, ?_, rfl, rfl⟩
  · simp only [editTask, hl, searchTask]
    rw [← hef]
    exact mapFind_mapInsert_self _ _ _
  · simp [editTask, hl]


/-- Witness for C6: editing task 1 with a new description and the invalid
priority 0 keeps priority 2. -/
theorem C6_witness :
    mapFind (ToDoData.mk [⟨1, ['a'], 2, false⟩] [(1, ⟨1, ['a'], 2, false⟩)]
        [] 2 1).taskMap 1 = some ⟨1, ['a'], 2, false⟩ ∧
    (∀ q, (some (0 : Int)) = some q → q < 1 ∨ 5 < q) ∧
    (searchTask (editTask (ToDoData.mk [⟨1, ['a'], 2, false⟩]
        [(1, ⟨1, ['a'], 2, false⟩)] [] 2 1) 1 ['z'] (some 0)).1 1 =
      some ⟨1, ['z'], 2, false⟩ ∧
      (editTask (ToDoData.mk [⟨1, ['a'], 2, false⟩]
        [(1, ⟨1, ['a'], 2, false⟩)] [] 2 1) 1 ['z'] (some 0)).2 = true ∧
      clampPrio 0 = 1 ∧ clampPrio 9 = 1) :=
  ⟨by decide, by decide,
    C6 (ToDoData.mk [⟨1, ['a'], 2, false⟩] [(1, ⟨1, ['a'], 2, false⟩)] [] 2 1)
      1 ⟨1, ['a'], 2, false⟩ ['z'] (some 0) (by decide) (by decide)⟩

/-- C7: for a non-empty description and a priority outside [1,5], add
succeeds in both variants (reporting the new id, growing the live count) and
the created task has effective priority 1. -/
theorem C7 (d : ToDoData) (l : ToDoList) (desc : List Char) (p : Int)
    (hd : desc ≠ []) (hp : p < 1 ∨ 5 < p) :
    (addTask d desc p).2 = some d.nextId ∧
    searchTask (addTask d desc p).1 d.nextId =
      some ⟨d.nextId, desc, 1, false⟩ ∧
    (addTask d desc p).1.totalTasks = d.totalTasks + 1 ∧
    (ToDoList.addTask l desc p).2 = some l.taskCounter ∧
    mapFind (ToDoList.addTask l desc p).1.hashTable l.taskCounter =
      some ⟨l.taskCounter, desc, 1, false⟩ ∧
    (ToDoList.addTask l desc p).1.size = l.size + 1 := by
  have hcl : clampPrio p = 1 := by unfold clampPrio; rw [if_pos hp]
  refine ⟨?_, ?_, ?_, ?_, ?_, ?_⟩
  · simp [addTask, hd]
  · simp only [addTask, if_neg hd, searchTask]
    rw [show (⟨d.nextId, desc, clampPrio p, false⟩ : Task) =
        ⟨d.nextId, desc, 1, false⟩ from by rw [hcl]]
    exact mapFind_mapInsert_self _ _ _
  · simp [addTask, hd]
  · simp [ToDoList.addTask, hd]
  · simp only [ToDoList.addTask, if_neg hd, if_pos hp]
    exact mapFind_mapInsert_self _ _ _
  · simp [ToDoList.addTask, hd]

/-- Witness for C7 at the fresh stores with priority 9. -/
theorem C7_witness :
    (['x'] : List Char) ≠ [] ∧ ((9 : Int) < 1 ∨ 5 < (9 : Int)) ∧
    ((addTask initialData ['x'] 9).2 = some initialData.nextId ∧
      searchTask (addTask initialData ['x'] 9).1 initialData.nextId =
        some ⟨initialData.nextId, ['x'], 1, false⟩ ∧
      (addTask initialData ['x'] 9).1.totalTasks =
        initialData.totalTasks + 1 ∧
      (ToDoList.addTask initialList ['x'] 9).2 =
        some initialList.taskCounter ∧
      mapFind (ToDoList.addTask initialList ['x'] 9).1.hashTable
          initialList.taskCounter =
        some ⟨initialList.taskCounter, ['x'], 1, false⟩ ∧
      (ToDoList.addTask initialList ['x'] 9).1.size = initialList.size + 1) :=
  ⟨by decide, by decide,
    C7 initialData initialList ['x'] 9 (by decide) (by decide)⟩

/-- C8: in both variants, add fails (prints the empty-description error and
issues no id) exactly when the description is empty, and on that failure the
store is completely unchanged — same sequence, index, id counter and size. -/
theorem C8 (d : ToDoData) (l : ToDoList) (desc : List Char) (p q : Int) :
    (addTask d [] p).1 = d ∧ (addTask d [] p).2 = none ∧
    ((addTask d desc q).2 = none ↔ desc = []) ∧
    (ToDoList.addTask l [] p).1 = l ∧ (ToDoList.addTask l [] p).2 = none ∧
    ((ToDoList.addTask l desc q).2 = none ↔ desc = []) := by
  refine ⟨rfl, rfl, ?_, rfl, rfl, ?_⟩
  · by_cases hd : desc = [] <;> simp [addTask, hd]
  · by_cases hd : desc = [] <;> simp [ToDoList.addTask, hd]

/-- C9: `undoDelete` fails (prints the nothing-to-undo warning, restores no
id) exactly when the undo stack is empty, and on that failure the store is
completely unchanged. -/
theorem C9 (d e : ToDoData) :
    (undoDelete { d with deletedStack := [] }).1 =
      { d with deletedStack := [] } ∧
    (undoDelete { d with deletedStack := [] }).2 = none ∧
    ((undoDelete e).2 = none ↔ e.deletedStack = []) := by
  refine ⟨rfl, rfl, ?_⟩
  cases hs : e.deletedStack <;> simp [undoDelete, hs]

/-- C10: loading is not total over arbitrary lines.  A line with fewer than
three delimiters ("1|b") is skipped without error, while a line with three
delimiters but a non-numeric id field ("abc|d|2|0") reaches `stoi`, whose
exception aborts the load with the earlier lines already inserted and the
later lines never processed; in general, whenever the three delimiters are
found but the id field fails to parse, the line is the exception path, not a
skip. -/
theorem C10 :
    loadFromFile initialData
        ["1|a|2|0".data, "abc|d|2|0".data, "2|b|3|0".data] =
      .error (ToDoData.mk [⟨1, ['a'], 2, false⟩]
        [(1, ⟨1, ['a'], 2, false⟩)] [] 2 1) ∧
    parseLine "abc|d|2|0".data = .err ∧
    loadFromFile initialData
        ["1|a|2|0".data, "1|b".data, "2|b|3|0".data] =
      .ok (ToDoData.mk [⟨1, ['a'], 2, false⟩, ⟨2, ['b'], 3, false⟩]
        [(1, ⟨1, ['a'], 2, false⟩), (2, ⟨2, ['b'], 3, false⟩)] [] 3 2) ∧
    parseLine "1|b".data = .skip ∧
    (∀ line p1 p2 p3, line ≠ [] → strFind line 0 = some p1 →
      strFind line (p1 + 1) = some p2 → strFind line (p2 + 1) = some p3 →
      stoiChars (line.take p1) = none → parseLine line = .err) := by
  refine ⟨by rfl, by decide, by rfl, by decide, ?_⟩
  intro line p1 p2 p3 hne h1 h2 h3 hid
  rw [parseLine, if_neg hne]
  simp only [h1, h2, h3, hid]


/-- C2 counterexample: as stated the claim is false for `loadFromFile`.
Loading a file whose two well-formed lines carry the same id 1 appends both
nodes to the sequence while the index keeps only the second, so the first
task in the sequence is not in the index under its id. -/
theorem C2_counterexample :
    loadFromFile initialData ["1|a|1|0".data, "1|b|1|0".data] =
      .ok (ToDoData.mk [⟨1, ['a'], 1, false⟩, ⟨1, ['b'], 1, false⟩]
        [(1, ⟨1, ['b'], 1, false⟩)] [] 2 2) ∧
    ¬ SeqIndexAgree (ToDoData.mk [⟨1, ['a'], 1, false⟩, ⟨1, ['b'], 1, false⟩]
        [(1, ⟨1, ['b'], 1, false⟩)] [] 2 2) :=
  ⟨by rfl, by decide⟩

/-- C2 (amended): from any store satisfying the store invariant, each
in-memory operation (add, edit, delete, undoDelete, markComplete) leaves the
ordered sequence and the identifier index in exact agreement — same live
tasks on both sides, index functional — and loading from file does so as
well provided the ids contributed by the loaded lines are pairwise distinct
and distinct from the live ids (a file repeating an id violates the
agreement, see the counterexample). -/
theorem C2 (d : ToDoData) (h : Inv d) :
    (∀ desc p, SeqIndexAgree (addTask d desc p).1) ∧
    (∀ id nd np, SeqIndexAgree (editTask d id nd np).1) ∧
    (∀ id, SeqIndexAgree (deleteTask d id).1) ∧
    SeqIndexAgree (undoDelete d).1 ∧
    (∀ id done, SeqIndexAgree (markComplete d id done).1) ∧
    (∀ lines, ((d.head.map Task.id) ++ loadedIds lines).Nodup →
      SeqIndexAgree (loadState (loadFromFile d lines))) := by
  refine ⟨?_, ?_, ?_, ?_, ?_, ?_⟩
  · intro desc p
    exact (Inv_addTask d desc p h).1.2
  · intro id nd np
    exact (Inv_editTask d id nd np h).1.2
  · intro id
    exact (Inv_deleteTask d id h).1.2
  · exact (Inv_undoDelete d h).1.2
  · intro id done
    exact (Inv_markComplete d id done h).1.2
  · intro lines hn
    exact (MapInv_loadFromFile lines d h.1 hn).2

/-- Witness for C2 at a concrete one-task store satisfying the invariant. -/
theorem C2_witness :
    Inv (ToDoData.mk [⟨1, ['a'], 2, false⟩] [(1, ⟨1, ['a'], 2, false⟩)]
      [] 2 1) ∧
    ((∀ desc p, SeqIndexAgree (addTask (ToDoData.mk [⟨1, ['a'], 2, false⟩]
        [(1, ⟨1, ['a'], 2, false⟩)] [] 2 1) desc p).1) ∧
     (∀ id nd np, SeqIndexAgree (editTask (ToDoData.mk [⟨1, ['a'], 2, false⟩]
        [(1, ⟨1, ['a'], 2, false⟩)] [] 2 1) id nd np).1) ∧
     (∀ id, SeqIndexAgree (deleteTask (ToDoData.mk [⟨1, ['a'], 2, false⟩]
        [(1, ⟨1, ['a'], 2, false⟩)] [] 2 1) id).1) ∧
     SeqIndexAgree (undoDelete (ToDoData.mk [⟨1, ['a'], 2, false⟩]
        [(1, ⟨1, ['a'], 2, false⟩)] [] 2 1)).1 ∧
     (∀ id done, SeqIndexAgree (markComplete (ToDoData.mk
        [⟨1, ['a'], 2, false⟩] [(1, ⟨1, ['a'], 2, false⟩)] [] 2 1)
        id done).1) ∧
     (∀ lines, (((ToDoData.mk [⟨1, ['a'], 2, false⟩]
          [(1, ⟨1, ['a'], 2, false⟩)] [] 2 1).head.map Task.id) ++
            loadedIds lines).Nodup →
       SeqIndexAgree (loadState (loadFromFile (ToDoData.mk
          [⟨1, ['a'], 2, false⟩] [(1, ⟨1, ['a'], 2, false⟩)] [] 2 1)
          lines)))) :=
  ⟨by decide,
    C2 (ToDoData.mk [⟨1, ['a'], 2, false⟩] [(1, ⟨1, ['a'], 2, false⟩)] [] 2 1)
      (by decide)⟩

/-- C3: identifier monotonicity.  Along any sequence of operations every id
issued by add and every id restored by undo stays strictly below the final
`nextId`; the issued ids are strictly increasing, so no id is ever issued
twice; `deleteTask` leaves `nextId` unchanged, so the id issued by an add
immediately after a delete strictly exceeds the deleted (live) id; and
`undoDelete` raises `nextId` to `max(nextId, restored.id + 1)`. -/
theorem C3 (d : ToDoData) (ops : List Op) (id : Int) (t r : Task)
    (rest : List Task) (h : Inv d) (hl : mapFind d.taskMap id = some t)
    (hs : d.deletedStack = r :: rest) :
    (∀ i ∈ issuedIds d ops ++ restoredIds d ops, i < (runOps d ops).nextId) ∧
    (issuedIds d ops).Pairwise (· < ·) ∧
    (deleteTask d id).1.nextId = d.nextId ∧
    (∀ desc p i, (addTask (deleteTask d id).1 desc p).2 = some i → id < i) ∧
    (undoDelete d).1.nextId = max d.nextId (r.id + 1) := by
  have hid : id < d.nextId := by
    have hmem := mapFind_mem hl
    have h1 := h.1.2.2.1 (id, t) hmem
    have h2 : t ∈ d.head := h1.1
    have h3 : id = t.id := h1.2
    have h4 := h.2.1 t h2
    omega
  refine ⟨?_, issuedIds_pairwise ops d, deleteTask_nextId d id, ?_, ?_⟩
  · intro i hi
    rcases List.mem_append.1 hi with hi | hi
    · exact mem_issuedIds_lt ops d i hi
    · exact mem_restoredIds_lt ops d i hi
  · intro desc p i hadd
    by_cases hd : desc = []
    · simp [addTask, hd] at hadd
    · simp only [addTask, if_neg hd, Option.some.injEq] at hadd
      rw [← hadd, deleteTask_nextId d id]
      exact hid
  · simp only [undoDelete, hs]

/-- Witness for C3: a store with one live task (id 2), one deleted task
(id 1) on the stack, and a two-operation run. -/
theorem C3_witness :
    Inv (ToDoData.mk [⟨2, ['b'], 3, false⟩] [(2, ⟨2, ['b'], 3, false⟩)]
      [⟨1, ['a'], 2, false⟩] 3 1) ∧
    mapFind (ToDoData.mk [⟨2, ['b'], 3, false⟩] [(2, ⟨2, ['b'], 3, false⟩)]
      [⟨1, ['a'], 2, false⟩] 3 1).taskMap 2 = some ⟨2, ['b'], 3, false⟩ ∧
    (ToDoData.mk [⟨2, ['b'], 3, false⟩] [(2, ⟨2, ['b'], 3, false⟩)]
      [⟨1, ['a'], 2, false⟩] 3 1).deletedStack = ⟨1, ['a'], 2, false⟩ :: [] ∧
    ((∀ i ∈ issuedIds (ToDoData.mk [⟨2, ['b'], 3, false⟩]
          [(2, ⟨2, ['b'], 3, false⟩)] [⟨1, ['a'], 2, false⟩] 3 1)
          [Op.add ['c'] 1, Op.undo] ++
        restoredIds (ToDoData.mk [⟨2, ['b'], 3, false⟩]
          [(2, ⟨2, ['b'], 3, false⟩)] [⟨1, ['a'], 2, false⟩] 3 1)
          [Op.add ['c'] 1, Op.undo],
        i < (runOps (ToDoData.mk [⟨2, ['b'], 3, false⟩]
          [(2, ⟨2, ['b'], 3, false⟩)] [⟨1, ['a'], 2, false⟩] 3 1)
          [Op.add ['c'] 1, Op.undo]).nextId) ∧
      (issuedIds (ToDoData.mk [⟨2, ['b'], 3, false⟩]
        [(2, ⟨2, ['b'], 3, false⟩)] [⟨1, ['a'], 2, false⟩] 3 1)
        [Op.add ['c'] 1, Op.undo]).Pairwise (· < ·) ∧
      (deleteTask (ToDoData.mk [⟨2, ['b'], 3, false⟩]
        [(2, ⟨2, ['b'], 3, false⟩)] [⟨1, ['a'], 2, false⟩] 3 1) 2).1.nextId =
        (ToDoData.mk [⟨2, ['b'], 3, false⟩] [(2, ⟨2, ['b'], 3, false⟩)]
          [⟨1, ['a'], 2, false⟩] 3 1).nextId ∧
      (∀ desc p i, (addTask (deleteTask (ToDoData.mk [⟨2, ['b'], 3, false⟩]
          [(2, ⟨2, ['b'], 3, false⟩)] [⟨1, ['a'], 2, false⟩] 3 1) 2).1
          desc p).2 = some i → 2 < i) ∧
      (undoDelete (ToDoData.mk [⟨2, ['b'], 3, false⟩]
        [(2, ⟨2, ['b'], 3, false⟩)] [⟨1, ['a'], 2, false⟩] 3 1)).1.nextId =
        max (ToDoData.mk [⟨2, ['b'], 3, false⟩] [(2, ⟨2, ['b'], 3, false⟩)]
          [⟨1, ['a'], 2, false⟩] 3 1).nextId ((⟨1, ['a'], 2, false⟩ : Task).id + 1)) :=
  ⟨by decide, by decide, by decide,
    C3 (ToDoData.mk [⟨2, ['b'], 3, false⟩] [(2, ⟨2, ['b'], 3, false⟩)]
        [⟨1, ['a'], 2, false⟩] 3 1)
      [Op.add ['c'] 1, Op.undo] 2 ⟨2, ['b'], 3, false⟩ ⟨1, ['a'], 2, false⟩ []
      (by decide) (by decide) (by decide)⟩


/-- C4: a successful add assigns `id = next_id`, appends the new task at the
end of the ordered sequence, inserts it into the identifier index,
increments `next_id` and the live count, and reports the new id; across any
run of operations the issued ids are strictly increasing, and after any
further adds the task is still retrievable via search with identical
description, clamped priority and `completed = false`. -/
theorem C4 (d : ToDoData) (desc : List Char) (p : Int) (hd : desc ≠ []) :
    (addTask d desc p).2 = some d.nextId ∧
    (addTask d desc p).1.head =
      d.head ++ [⟨d.nextId, desc, clampPrio p, false⟩] ∧
    mapFind (addTask d desc p).1.taskMap d.nextId =
      some ⟨d.nextId, desc, clampPrio p, false⟩ ∧
    (addTask d desc p).1.nextId = d.nextId + 1 ∧
    (addTask d desc p).1.totalTasks = d.totalTasks + 1 ∧
    (∀ ops : List Op, (∀ op ∈ ops, ∃ ds pr, op = .add ds pr) →
      searchTask (runOps (addTask d desc p).1 ops) d.nextId =
        some ⟨d.nextId, desc, clampPrio p, false⟩) ∧
    (∀ ops : List Op, (issuedIds d ops).Pairwise (· < ·)) := by
  refine ⟨?_, ?_, ?_, ?_, ?_, ?_, fun ops => issuedIds_pairwise ops d⟩
  · simp [addTask, hd]
  · simp [addTask, hd]
  · simp only [addTask, if_neg hd]
    exact mapFind_mapInsert_self _ _ _
  · simp [addTask, hd]
  · simp [addTask, hd]
  · intro ops hops
    have h1 : (addTask d desc p).1.nextId = d.nextId + 1 := by
      simp [addTask, hd]
    rw [searchTask_adds ops _ d.nextId hops (by omega)]
    simp only [searchTask, addTask, if_neg hd]
    exact mapFind_mapInsert_self _ _ _

/-- Witness for C4: adding to the fresh store and running one further add. -/
theorem C4_witness :
    (['x'] : List Char) ≠ [] ∧
    ((addTask initialData ['x'] 7).2 = some initialData.nextId ∧
      (addTask initialData ['x'] 7).1.head =
        initialData.head ++ [⟨initialData.nextId, ['x'], clampPrio 7, false⟩] ∧
      mapFind (addTask initialData ['x'] 7).1.taskMap initialData.nextId =
        some ⟨initialData.nextId, ['x'], clampPrio 7, false⟩ ∧
      (addTask initialData ['x'] 7).1.nextId = initialData.nextId + 1 ∧
      (addTask initialData ['x'] 7).1.totalTasks =
        initialData.totalTasks + 1 ∧
      (∀ ops : List Op, (∀ op ∈ ops, ∃ ds pr, op = .add ds pr) →
        searchTask (runOps (addTask initialData ['x'] 7).1 ops)
            initialData.nextId =
          some ⟨initialData.nextId, ['x'], clampPrio 7, false⟩) ∧
      (∀ ops : List Op,
        (issuedIds initialData ops).Pairwise (· < ·))) :=
  ⟨by decide, C4 initialData ['x'] 7 (by decide)⟩

/-- C5: persistence round-trip.  Saving any store whose descriptions are free
of the delimiter character in the one-record-per-line `id|desc|prio|flag`
format and loading the lines into a fresh store succeeds and reproduces
exactly the same tasks — same (id, description, priority, completed) tuples
in the same order — and leaves the fresh store's `next_id` strictly greater
than every loaded id. -/
theorem C5 (d : ToDoData) (h : ∀ t ∈ d.head, '|' ∉ t.description) :
    ∃ d1, loadFromFile initialData (saveToFile d) = .ok d1 ∧
      d1.head = d.head ∧ (∀ t ∈ d1.head, t.id < d1.nextId) := by
  obtain ⟨d1, hload, hhead⟩ := loadFromFile_saved d.head initialData h
  have hload' : loadFromFile initialData (saveToFile d) = .ok d1 := by
    rw [saveToFile]
    exact hload
  refine ⟨d1, hload', ?_, ?_⟩
  · simpa [initialData] using hhead
  · have h2 := load_liveLt (saveToFile d) initialData
      (by intro t ht; simp [initialData] at ht)
    rw [hload'] at h2
    simpa [loadState] using h2

/-- Witness for C5 at a concrete two-task store with pipe-free
descriptions. -/
theorem C5_witness :
    (∀ t ∈ (ToDoData.mk [⟨1, ['h', 'i'], 2, false⟩, ⟨2, ['y', 'o'], 5, true⟩]
        [(1, ⟨1, ['h', 'i'], 2, false⟩), (2, ⟨2, ['y', 'o'], 5, true⟩)]
        [] 3 2).head, '|' ∉ t.description) ∧
    (∃ d1, loadFromFile initialData (saveToFile (ToDoData.mk
        [⟨1, ['h', 'i'], 2, false⟩, ⟨2, ['y', 'o'], 5, true⟩]
        [(1, ⟨1, ['h', 'i'], 2, false⟩), (2, ⟨2, ['y', 'o'], 5, true⟩)]
        [] 3 2)) = .ok d1 ∧
      d1.head = (ToDoData.mk
        [⟨1, ['h', 'i'], 2, false⟩, ⟨2, ['y', 'o'], 5, true⟩]
        [(1, ⟨1, ['h', 'i'], 2, false⟩), (2, ⟨2, ['y', 'o'], 5, true⟩)]
        [] 3 2).head ∧ (∀ t ∈ d1.head, t.id < d1.nextId)) :=
  ⟨by decide,
    C5 (ToDoData.mk [⟨1, ['h', 'i'], 2, false⟩, ⟨2, ['y', 'o'], 5, true⟩]
        [(1, ⟨1, ['h', 'i'], 2, false⟩), (2, ⟨2, ['y', 'o'], 5, true⟩)]
        [] 3 2) (by decide)⟩


/-- C4 counterexample: the claim's "retrievable with identical priority" for
any priority fails, because add clamps an out-of-range priority: adding with
priority 9 succeeds, but the task found by search carries priority 1, not
the identical priority 9. -/
theorem C4_counterexample :
    (addTask initialData ['x'] 9).2 = some 1 ∧
    searchTask (addTask initialData ['x'] 9).1 1 =
      some ⟨1, ['x'], 1, false⟩ ∧
    searchTask (addTask initialData ['x'] 9).1 1 ≠
      some ⟨1, ['x'], 9, false⟩ := by
  refine ⟨by decide, by decide, by decide⟩

end ToDo
